import Mathlib

/-!
Verification of the context-resolution core of the be project
(src/be/lib.py, src/be/cli.py, src/be/_extern.py).

Python dictionaries are modelled as association lists in insertion
order with first-match lookup; side effects (echoed warnings, stderr
messages followed by sys.exit) are captured in return values and in an
explicit error type.  Machine strings are Lean strings over their
character lists.
-/

namespace Be

/-- Exit code used by lib.py: normal termination. -/
def NORMAL : Nat := 0

/-- Exit code used by lib.py: program fault. -/
def PROGRAM_ERROR : Nat := 1

/-- Exit code used by lib.py: user error. -/
def USER_ERROR : Nat := 2

/-- Exit code used by lib.py: project misconfiguration. -/
def PROJECT_ERROR : Nat := 3

/-- Exit code used by lib.py: template misconfiguration. -/
def TEMPLATE_ERROR : Nat := 4

/-- Failure modes of the embedded code.  The first four model raised
Python exceptions (IndexError without an argument, IndexError raised
with an explicit count as in item_from_topics, ValueError, KeyError
with the bindings attribute that binding_from_item attaches); exitCode
models an echoed message followed by sys.exit. -/
inductive Err
  | indexError
  | indexErrorArg (n : Int)
  | valueError
  | keyError (k : String) (bindings : List (String × String))
  | exitCode (code : Nat) (msg : String)
deriving Repr, DecidableEq

/-- A Python dict of strings, in insertion order. -/
abbrev Dict := List (String × String)

/-- Dictionary lookup: value of the first entry with the given key. -/
def dictGet : Dict → String → Option String
  | [], _ => none
  | (k', v) :: rest, k => if k' = k then some v else dictGet rest k

/-- Dictionary assignment: replace the entry with the given key, or
append a new entry. -/
def dictUpdate : Dict → String → String → Dict
  | [], k, v => [(k, v)]
  | (k', v') :: rest, k, v =>
      if k' = k then (k, v) :: rest else (k', v') :: dictUpdate rest k v

/-- Python regex word character for a byte string: [a-zA-Z0-9_]. -/
def isWordChar (c : Char) : Bool := c.isAlphanum || c = '_'

/-- Whether a character is an opening or closing brace. -/
def isBraceChar (c : Char) : Bool := c = '\x7b' || c = '\x7d'

/-- Numeric value of a digit string, as computed by Python int on a
string of decimal digits. -/
def digitsVal (s : List Char) : Nat :=
  s.foldl (fun a c => 10 * a + (c.toNat - ('0').toNat)) 0

/-- Python str.strip applied with the two brace characters: drop all
leading and trailing braces. -/
def pyStripBraces (s : List Char) : List Char :=
  ((s.dropWhile isBraceChar).reverse.dropWhile isBraceChar).reverse

/-- Whether a character is ASCII whitespace, for int() trimming. -/
def isSpaceChar (c : Char) : Bool :=
  c = ' ' || c = '\t' || c = '\n' || c = '\r' || c = '\x0b' || c = '\x0c'

/-- Python int() on a byte string: optional surrounding whitespace,
optional sign, one or more decimal digits; anything else raises
ValueError. -/
def pyInt (s : List Char) : Except Err Int :=
  let t := ((s.dropWhile isSpaceChar).reverse.dropWhile isSpaceChar).reverse
  match t with
  | '-' :: ds =>
      if ds ≠ [] ∧ ds.all Char.isDigit then .ok (-(digitsVal ds : Int))
      else .error .valueError
  | '+' :: ds =>
      if ds ≠ [] ∧ ds.all Char.isDigit then .ok (digitsVal ds : Int)
      else .error .valueError
  | ds =>
      if ds ≠ [] ∧ ds.all Char.isDigit then .ok (digitsVal ds : Int)
      else .error .valueError

/-- Python list indexing with an integer index: negative indices count
from the end, out-of-range indices raise IndexError. -/
def pyListIdx (l : List String) (i : Int) : Except Err String :=
  let j : Int := if i < 0 then i + l.length else i
  if j < 0 then .error .indexError
  else
    match l.get? j.toNat with
    | some v => .ok v
    | none => .error .indexError

/-- First index at which the needle occurs as a contiguous substring,
as Python str.find / str.index compute it. -/
def strFindAux (needle : List Char) : List Char → Nat → Option Nat
  | s, k =>
    if needle.isPrefixOf s then some k
    else
      match s with
      | [] => none
      | _ :: t => strFindAux needle t (k + 1)

/-- First index of a substring, or none when absent. -/
def strFind (s needle : List Char) : Option Nat := strFindAux needle s 0

/-- Model of re.match on the pattern brace-digits-brace: true when the
string STARTS with an opening brace, one or more digits and a closing
brace (the rest of the string is unconstrained, as with re.match). -/
def matchPosKeyDigits : List Char → Bool
  | '\x7d' :: _ => true
  | c :: rest => if c.isDigit then matchPosKeyDigits rest else false
  | [] => false

/-- Entry point of the positional-key regex match from lib.py. -/
def matchPosKey : List Char → Bool
  | '\x7b' :: c :: rest => if c.isDigit then matchPosKeyDigits rest else false
  | _ => false

/-- Scan of re.findall on the pattern brace, optional single digit,
brace, left to right without overlap (lib.find_positional_arguments).
The fuel argument bounds the number of scanning steps; every caller
passes the string length, which suffices because each step consumes at
least one character. -/
def fpaImpl : Nat → List Char → List (List Char)
  | _, [] => []
  | 0, _ :: _ => []
  | fuel + 1, '\x7b' :: '\x7d' :: rest => ['\x7b', '\x7d'] :: fpaImpl fuel rest
  | fuel + 1, '\x7b' :: d :: '\x7d' :: rest =>
      if d.isDigit then ['\x7b', d, '\x7d'] :: fpaImpl fuel rest
      else fpaImpl fuel (d :: '\x7d' :: rest)
  | fuel + 1, _ :: rest => fpaImpl fuel rest

/-- Model of re.findall on the pattern brace, optional single digit,
brace (lib.find_positional_arguments). -/
def find_positional_arguments (s : List Char) : List (List Char) :=
  fpaImpl s.length s

/-- Lexicographic string comparison on character lists, as Python
compares byte strings. -/
def lexLe : List Char → List Char → Bool
  | [], _ => true
  | _ :: _, [] => false
  | a :: as, b :: bs => if a = b then lexLe as bs else decide (a < b)

/-- Last element of the Python-sorted list: its maximum in
lexicographic order, or none for the empty list (where indexing the
sorted list raises IndexError). -/
def pySortedLast : List (List Char) → Option (List Char)
  | [] => none
  | h :: t => some (t.foldl (fun m x => if lexLe m x then x else m) h)

/-- lib.find_highest_position: int of the brace-stripped last element
of the sorted placeholder list.  An empty list raises IndexError and a
bare pair of braces raises ValueError inside int. -/
def find_highest_position (ts : List (List Char)) : Except Err Int :=
  match pySortedLast ts with
  | none => .error .indexError
  | some s => pyInt (pyStripBraces s)

/-- Model of the dollar-expansion regex substitution in
lib.parse_environment: each dollar sign followed by one or more word
characters is replaced with the context value of that name; a missing
name writes an error and exits with USER_ERROR.  Replacements are not
rescanned, as with re.sub. -/
def subDollarImpl (context : Dict) : Nat → List Char → Except Err (List Char)
  | _, [] => .ok []
  | 0, _ :: _ => .ok []
  | fuel + 1, '$' :: rest =>
      let run := rest.takeWhile isWordChar
      if run = [] then
        match subDollarImpl context fuel rest with
        | .error e => .error e
        | .ok out => .ok ('$' :: out)
      else
        match dictGet context (String.mk run) with
        | none =>
            .error (.exitCode USER_ERROR
              ("ERROR: Unavailable fields variable: \"" ++ String.mk run ++ "\""))
        | some v =>
            match subDollarImpl context fuel (rest.dropWhile isWordChar) with
            | .error e => .error e
            | .ok out => .ok (v.data ++ out)
  | fuel + 1, c :: rest =>
      match subDollarImpl context fuel rest with
      | .error e => .error e
      | .ok out => .ok (c :: out)

/-- The dollar-expansion substitution applied to a value. -/
def subDollar (context : Dict) (s : List Char) : Except Err (List Char) :=
  subDollarImpl context s.length s

/-- Model of the brace-field regex substitution in
lib.parse_environment: each brace-enclosed run of one or more word
characters is replaced with its value in the source dictionary; a
missing name echoes a project error and exits with PROJECT_ERROR. -/
def subFieldsImpl (source : Dict) : Nat → List Char → Except Err (List Char)
  | _, [] => .ok []
  | 0, _ :: _ => .ok []
  | fuel + 1, '\x7b' :: rest =>
      let run := rest.takeWhile isWordChar
      match rest.dropWhile isWordChar with
      | '\x7d' :: tail =>
          if run = [] then
            match subFieldsImpl source fuel rest with
            | .error e => .error e
            | .ok out => .ok ('\x7b' :: out)
          else
            match dictGet source (String.mk run) with
            | none =>
                .error (.exitCode PROJECT_ERROR
                  ("PROJECT ERROR: Unavailable reference \"" ++ String.mk run
                    ++ "\" in be.yaml"))
            | some v =>
                match subFieldsImpl source fuel tail with
                | .error e => .error e
                | .ok out => .ok (v.data ++ out)
      | rest' =>
          match subFieldsImpl source fuel rest' with
          | .error e => .error e
          | .ok out => .ok ('\x7b' :: (run ++ out))
  | fuel + 1, c :: rest =>
      match subFieldsImpl source fuel rest with
      | .error e => .error e
      | .ok out => .ok (c :: out)

/-- The brace-field substitution applied to a value. -/
def subFields (source : Dict) (s : List Char) : Except Err (List Char) :=
  subFieldsImpl source s.length s

/-- Model of the alias-reference regex substitution in
the external template loader: each token of brace, at sign, one or
more word characters and closing brace is replaced with the current
value of the referenced template key; a missing key writes an error
and exits with USER_ERROR. -/
def subRefsImpl (templates : Dict) : Nat → List Char → Except Err (List Char)
  | _, [] => .ok []
  | 0, _ :: _ => .ok []
  | fuel + 1, '\x7b' :: '@' :: rest =>
      let run := rest.takeWhile isWordChar
      match rest.dropWhile isWordChar with
      | '\x7d' :: tail =>
          if run = [] then
            match subRefsImpl templates fuel ('\x7d' :: tail) with
            | .error e => .error e
            | .ok out => .ok ('\x7b' :: '@' :: out)
          else
            match dictGet templates (String.mk run) with
            | none =>
                .error (.exitCode USER_ERROR
                  ("Unresolvable reference: \"" ++ String.mk run ++ "\""))
            | some v =>
                match subRefsImpl templates fuel tail with
                | .error e => .error e
                | .ok out => .ok (v.data ++ out)
      | rest' =>
          match subRefsImpl templates fuel rest' with
          | .error e => .error e
          | .ok out => .ok ('\x7b' :: '@' :: (run ++ out))
  | fuel + 1, c :: rest =>
      match subRefsImpl templates fuel rest with
      | .error e => .error e
      | .ok out => .ok (c :: out)

/-- The alias-reference substitution applied to a pattern. -/
def subRefs (templates : Dict) (s : List Char) : Except Err (List Char) :=
  subRefsImpl templates s.length s

/-- Whether a string contains an alias-reference token: brace, at
sign, one or more word characters, closing brace.  The scan mirrors
subRefsImpl exactly. -/
def containsRefTokenImpl : Nat → List Char → Bool
  | _, [] => false
  | 0, _ :: _ => false
  | fuel + 1, '\x7b' :: '@' :: rest =>
      let run := rest.takeWhile isWordChar
      match rest.dropWhile isWordChar with
      | '\x7d' :: tail =>
          if run = [] then containsRefTokenImpl fuel ('\x7d' :: tail) else true
      | rest' => containsRefTokenImpl fuel rest'
  | fuel + 1, _ :: rest => containsRefTokenImpl fuel rest

/-- Whether a pattern contains an alias-reference token. -/
def containsRefToken (s : List Char) : Bool :=
  containsRefTokenImpl s.length s

/-- Scan of re.findall on the multi-digit positional pattern (brace,
one or more digits, brace) used by lib.list_template on the remainder
of the pattern. -/
def findallMultiPosImpl : Nat → List Char → List (List Char)
  | _, [] => []
  | 0, _ :: _ => []
  | fuel + 1, '\x7b' :: rest =>
      let run := rest.takeWhile Char.isDigit
      match rest.dropWhile Char.isDigit with
      | '\x7d' :: tail =>
          if run = [] then findallMultiPosImpl fuel ('\x7d' :: tail)
          else ('\x7b' :: (run ++ ['\x7d'])) :: findallMultiPosImpl fuel tail
      | rest' => findallMultiPosImpl fuel rest'
  | fuel + 1, _ :: rest => findallMultiPosImpl fuel rest

/-- Model of re.findall on the multi-digit positional pattern. -/
def findallMultiPos (s : List Char) : List (List Char) :=
  findallMultiPosImpl s.length s

/-- Lowercase a string, as Python str.lower on ASCII text. -/
def pyLower (s : String) : String := String.mk (s.data.map Char.toLower)

/-- lib.replacement_fields_from_context: keys starting with the three
characters B, E, underscore have that start stripped and the remainder
lowercased, and are mapped to their values. -/
def replacement_fields_from_context (context : Dict) : Dict :=
  context.foldl
    (fun acc kv =>
      if List.isPrefixOf ['B', 'E', '_'] kv.1.data then
        dictUpdate acc (pyLower (String.mk (kv.1.data.drop 3))) kv.2
      else acc)
    []

/-- lib.item_from_topics: a key whose start matches the positional
form selects the topic at that index, re-raising IndexError with the
required count; any other key echoes a message and exits with
PROJECT_ERROR. -/
def item_from_topics (key : String) (topics : List String) : Except Err String :=
  if matchPosKey key.data then
    match pyInt (pyStripBraces key.data) with
    | .error e => .error e
    | .ok pos =>
        match pyListIdx topics pos with
        | .ok v => .ok v
        | .error .indexError => .error (.indexErrorArg (pos + 1))
        | .error e => .error e
  else .error (.exitCode PROJECT_ERROR "be.yaml template key not recognised")

/-- lib.pattern_from_template: look up the pattern for a binding name,
echoing a message and exiting with code 1 when absent. -/
def pattern_from_template (templates : Dict) (name : String) : Except Err String :=
  match dictGet templates name with
  | some p => .ok p
  | none => .error (.exitCode 1 ("No template named \"" ++ name ++ "\""))

/-- A scalar inventory entry: a string or a number, stringified with
Python str when used as an item identifier. -/
inductive Scalar
  | s (v : String)
  | n (v : Int)
deriving Repr, DecidableEq

/-- Python str of a scalar. -/
def Scalar.toStr : Scalar → String
  | .s v => v
  | .n v => toString v

/-- An inventory item: a plain scalar, or a one-key mapping carrying
metadata of which only the key is significant. -/
inductive InvItem
  | plain (v : Scalar)
  | compound (key : Scalar)
deriving Repr, DecidableEq

/-- The item identifier: the single key of a compound descriptor,
otherwise the scalar itself, stringified. -/
def InvItem.ident : InvItem → String
  | .plain v => v.toStr
  | .compound k => k.toStr

/-- An inventory: binding names mapped to ordered item lists, in
iteration order. -/
abbrev Inventory := List (String × List InvItem)

/-- The inventory flattened to binding and item-identifier pairs in
iteration order. -/
def flattenInv (inv : Inventory) : List (String × String) :=
  (inv.map (fun bi => bi.2.map (fun it => (bi.1, it.ident)))).flatten

/-- One step of lib.invert_inventory: keep the first mapping for an
item and record a duplicate warning (the echoed binding and item) for
any later occurrence. -/
def invertStep (acc : Dict × List (String × String)) (p : String × String) :
    Dict × List (String × String) :=
  if (dictGet acc.1 p.2).isSome then (acc.1, acc.2 ++ [(p.1, p.2)])
  else (acc.1 ++ [(p.2, p.1)], acc.2)

/-- lib.invert_inventory: the inverted item-to-binding dictionary
together with the duplicate warnings echoed along the way. -/
def invert_inventory (inventory : Inventory) : Dict × List (String × String) :=
  (flattenInv inventory).foldl invertStep ([], [])

/-- lib.binding_from_item, with the process-wide memoization
dictionary passed and returned explicitly: a cache hit returns the
cached binding unchanged; otherwise the inverted inventory is
consulted, a hit is cached, and a miss raises KeyError with the
inverted inventory attached. -/
def binding_from_item (cache : Dict) (inventory : Inventory) (item : String) :
    Except Err (String × Dict) :=
  match dictGet cache item with
  | some b => .ok (b, cache)
  | none =>
      let bindings := (invert_inventory inventory).1
      match dictGet bindings item with
      | some b => .ok (b, dictUpdate cache item b)
      | none => .error (.keyError item bindings)

/-- The pure inverted-inventory lookup that binding_from_item
implements up to memoization. -/
def pureBinding (inventory : Inventory) (item : String) : Option String :=
  dictGet (invert_inventory inventory).1 item

/-- Model of the Python str.format calls made on the path patterns of
this repository: literal text, doubled-brace escapes, positional
fields given by all-digit names looked up in the argument tuple, and
keyword fields looked up in the keyword dictionary.  Conversion and
format specifications never occur in these patterns and are not
modelled; an empty field name is treated as a keyword lookup of the
empty name (the theorems below never evaluate it). -/
def pyFormatAux (topics : List String) (fields : Dict) : Nat → List Char → Except Err (List Char)
  | _, [] => .ok []
  | 0, _ :: _ => .ok []
  | fuel + 1, '\x7b' :: '\x7b' :: rest =>
      match pyFormatAux topics fields fuel rest with
      | .error e => .error e
      | .ok out => .ok ('\x7b' :: out)
  | fuel + 1, '\x7d' :: '\x7d' :: rest =>
      match pyFormatAux topics fields fuel rest with
      | .error e => .error e
      | .ok out => .ok ('\x7d' :: out)
  | _ + 1, '\x7d' :: _ => .error .valueError
  | fuel + 1, '\x7b' :: rest =>
      let name := rest.takeWhile (fun c => c != '\x7d')
      match rest.dropWhile (fun c => c != '\x7d') with
      | '\x7d' :: tail =>
          if name ≠ [] ∧ name.all Char.isDigit then
            match topics.get? (digitsVal name) with
            | none => .error .indexError
            | some v =>
                match pyFormatAux topics fields fuel tail with
                | .error e => .error e
                | .ok out => .ok (v.data ++ out)
          else
            match dictGet fields (String.mk name) with
            | none => .error (.keyError (String.mk name) [])
            | some v =>
                match pyFormatAux topics fields fuel tail with
                | .error e => .error e
                | .ok out => .ok (v.data ++ out)
      | _ => .error .valueError
  | fuel + 1, c :: rest =>
      match pyFormatAux topics fields fuel rest with
      | .error e => .error e
      | .ok out => .ok (c :: out)

/-- Python str.format on a pattern string. -/
def pyFormat (pattern : String) (topics : List String) (fields : Dict) :
    Except Err String :=
  match pyFormatAux topics fields pattern.data.length pattern.data with
  | .error e => .error e
  | .ok out => .ok (String.mk out)

/-- Replace a backslash with a forward slash, the character map behind
the final path normalization in lib.py. -/
def replaceBackslash (c : Char) : Char := if c = '\\' then '/' else c

/-- The message echoed by lib.pos_development_directory when too few
topics are supplied; it carries the minimum required count. -/
def insufficientMsg (item : String) (required : Int) : String :=
  "Template for \"" ++ item ++ "\" requires at least " ++ toString required
    ++ " arguments"

/-- lib.pos_development_directory with the memoization dictionary
explicit and the unused user argument omitted: derive replacement
fields from the context, resolve the binding and pattern, pre-validate
the supplied topic count against the highest positional placeholder,
then format and normalize separators.  A KeyError from formatting is
caught and turned into a TEMPLATE_ERROR exit; all other failures
propagate. -/
def pos_development_directory (cache : Dict) (templates : Dict)
    (inventory : Inventory) (context : Dict) (topics : List String)
    (item : String) : Except Err String :=
  let replacement_fields := replacement_fields_from_context context
  match binding_from_item cache inventory item with
  | .error e => .error e
  | .ok (binding, _) =>
      match pattern_from_template templates binding with
      | .error e => .error e
      | .ok pattern =>
          match find_highest_position (find_positional_arguments pattern.data) with
          | .error e => .error e
          | .ok highest =>
              if (topics.length : Int) - 1 < highest then
                .error (.exitCode USER_ERROR (insufficientMsg item (highest + 1)))
              else
                match pyFormat pattern topics replacement_fields with
                | .ok out => .ok (String.mk (out.data.map replaceBackslash))
                | .error (.keyError k _) =>
                    .error (.exitCode TEMPLATE_ERROR
                      ("TEMPLATE ERROR: " ++ k ++ " is not an available key"))
                | .error e => .error e

/-- The truncation core of lib.list_template (the portion before any
directory listing): locate the digit of the last supplied topic index
in the pattern, cut just past its closing brace, return none when no
further multi-digit positional placeholder remains, and otherwise
append the literal tail up to one character before the next opening
brace. -/
def list_template_trim (pattern : String) (topics : List String) :
    Except Err (Option String) :=
  match strFind pattern.data (toString ((topics.length : Int) - 1)).data with
  | none => .error .valueError
  | some idx =>
      let indexEnd := idx + 2
      let trimmed := pattern.data.take indexEnd
      if findallMultiPos (pattern.data.drop indexEnd) = [] then .ok none
      else
        match strFind (pattern.data.drop indexEnd) ['\x7b'] with
        | none => .ok (some (String.mk trimmed))
        | some j =>
            .ok (some (String.mk
              (trimmed ++ (pattern.data.drop indexEnd).take (j - 1))))

/-- A raw settings value from be.yaml: a string or a list of strings. -/
inductive EnvValue
  | str (s : String)
  | list (xs : List String)
deriving Repr, DecidableEq

/-- The list-flattening pass of lib.parse_environment: join list
values with the platform path separator. -/
def joinListValue (pathsep : String) : EnvValue → String
  | .str s => s
  | .list xs => String.intercalate pathsep xs

/-- First pass of lib.parse_environment over the settings entries. -/
def resolveEnvironmentLists (pathsep : String)
    (fields : List (String × EnvValue)) : Dict :=
  fields.map (fun kv => (kv.1, joinListValue pathsep kv.2))

/-- Apply a value transformation to every entry of a dictionary,
stopping at the first failure; iteration order and keys are those of
the input, as with the in-place loops of lib.parse_environment. -/
def mapValuesM (f : String → Except Err (List Char)) : Dict → Except Err Dict
  | [] => .ok []
  | (k, v) :: rest =>
      match f v with
      | .error e => .error e
      | .ok v' =>
          match mapValuesM f rest with
          | .error e => .error e
          | .ok rest' => .ok ((k, String.mk v') :: rest')

/-- The merged source dictionary of the brace-field pass: replacement
fields of the context, updated with each topic keyed by the string of
its first index in the topic list. -/
def envSourceDict (context : Dict) (topics : List String) : Dict :=
  topics.foldl
    (fun acc t => dictUpdate acc (toString (topics.findIdx (· = t))) t)
    (replacement_fields_from_context context)

/-- lib.parse_environment: list flattening, then dollar expansion
against the context, then brace-field expansion against the merged
field and topic dictionary. -/
def parse_environment (fields : List (String × EnvValue)) (context : Dict)
    (topics : List String) (pathsep : String) : Except Err Dict :=
  match mapValuesM (fun v => subDollar context v.data)
      (resolveEnvironmentLists pathsep fields) with
  | .error e => .error e
  | .ok f2 => mapValuesM (fun v => subFields (envSourceDict context topics) v.data) f2

/-- lib.parse_redirect: for each source and destination pair, a source
whose start matches the positional form copies the topic at that
index, and any other source copies the context value of that key;
missing topics raise IndexError and missing context keys raise
KeyError, both uncaught. -/
def parse_redirect (redirect : List (String × String)) (topics : List String)
    (context : Dict) : Except Err Dict :=
  match redirect with
  | [] => .ok context
  | (src, dest) :: rest =>
      if matchPosKey src.data then
        match pyInt (pyStripBraces src.data) with
        | .error e => .error e
        | .ok i =>
            match pyListIdx topics i with
            | .error e => .error e
            | .ok v => parse_redirect rest topics (dictUpdate context dest v)
      else
        match dictGet context src with
        | some v => parse_redirect rest topics (dictUpdate context dest v)
        | none => .error (.keyError src [])

/-- The tail of the enter-context command in cli.py: parse redirects
first, then, when an environment section exists, parse it, record the
space-joined list of its keys under BE_ENVIRONMENT, and update the
context with the parsed entries. -/
def in_compose (redirect : List (String × String))
    (environment : Option (List (String × EnvValue))) (topics : List String)
    (context : Dict) (pathsep : String) : Except Err Dict :=
  match parse_redirect redirect topics context with
  | .error e => .error e
  | .ok ctx1 =>
      match environment with
      | none => .ok ctx1
      | some fields =>
          match parse_environment fields ctx1 topics pathsep with
          | .error e => .error e
          | .ok parsed =>
              let ctx2 := dictUpdate ctx1 "BE_ENVIRONMENT"
                (String.intercalate " " (parsed.map Prod.fst))
              .ok (parsed.foldl (fun c kv => dictUpdate c kv.1 kv.2) ctx2)

/-- The loop of the external reference resolver: for each key and
pattern of the loaded copy, substitute alias references against the
current dictionary and assign the result back. -/
def resolveRefsAux : List (String × String) → Dict → Except Err Dict
  | [], templates => .ok templates
  | (key, pat) :: rest, templates =>
      match subRefs templates pat.data with
      | .error e => .error e
      | .ok newPat => resolveRefsAux rest (dictUpdate templates key (String.mk newPat))

/-- The external reference resolver applied at template-load time. -/
def resolve_references (templates : Dict) : Except Err Dict :=
  resolveRefsAux templates templates

/-- The path-separator normalization helper defined in the external
module: replace one separator character with the other depending on
the platform.  No caller invokes it anywhere in the repository. -/
def parse_environment_pathsep (onWindows : Bool) (environment : Dict) : Dict :=
  let right := if onWindows then ';' else ':'
  let wrong := if onWindows then ':' else ';'
  environment.map
    (fun kv => (kv.1, String.mk (kv.2.data.map (fun c => if c = wrong then right else c))))

/-- A token of a simple path pattern: literal non-brace text, a
positional placeholder with an all-digit name, or a keyword
placeholder with a word-character name.  Simple patterns are exactly
the patterns on which the format model above is a faithful rendering
of Python str.format. -/
inductive PatTok
  | lit (c : Char)
  | pos (n : Nat)
  | named (s : String)
deriving Repr, DecidableEq

/-- Parse a string as a simple pattern, or return none when it
contains stray braces, escapes, empty fields or field names outside
word characters. -/
def parseSimpleImpl : Nat → List Char → Option (List PatTok)
  | _, [] => some []
  | 0, _ :: _ => some []
  | fuel + 1, '\x7b' :: rest =>
      let run := rest.takeWhile isWordChar
      match rest.dropWhile isWordChar with
      | '\x7d' :: tail =>
          if run = [] then none
          else
            match parseSimpleImpl fuel tail with
            | none => none
            | some toks =>
                if run.all Char.isDigit then some (.pos (digitsVal run) :: toks)
                else some (.named (String.mk run) :: toks)
      | _ => none
  | _ + 1, '\x7d' :: _ => none
  | fuel + 1, c :: rest =>
      match parseSimpleImpl fuel rest with
      | none => none
      | some toks => some (.lit c :: toks)

/-- Parse a string as a simple pattern. -/
def parseSimplePattern (s : List Char) : Option (List PatTok) :=
  parseSimpleImpl s.length s

/-- Whether a character list is free of brace characters. -/
def noBrace (s : List Char) : Bool := s.all (fun c => !isBraceChar c)

/-- The binding returned by binding_from_item, disregarding the cache
state and mapping failure to none. -/
def bindingResult : Except Err (String × Dict) → Option String
  | .ok (b, _) => some b
  | .error _ => none

/-- Number of occurrences of an item identifier in a flattened
binding and item pair list. -/
def occCount (pairs : List (String × String)) (id : String) : Nat :=
  pairs.countP (fun p => decide (p.2 = id))

/-- Binding of the first occurrence of an item identifier in a
flattened binding and item pair list. -/
def firstIn : List (String × String) → String → Option String
  | [], _ => none
  | (b, i) :: rest, id => if i = id then some b else firstIn rest id

theorem dictGet_update_self (m : Dict) (k v : String) :
    dictGet (dictUpdate m k v) k = some v := by
  induction m with
  | nil => simp [dictUpdate, dictGet]
  | cons kv rest ih =>
      obtain ⟨k', v'⟩ := kv
      by_cases h : k' = k
      · subst h
        simp [dictUpdate, dictGet]
      · simp [dictUpdate, dictGet, h, ih]

theorem dictGet_update_ne (m : Dict) {k' k : String} (v : String) (h : k' ≠ k) :
    dictGet (dictUpdate m k' v) k = dictGet m k := by
  induction m with
  | nil => simp [dictUpdate, dictGet, h]
  | cons kv rest ih =>
      obtain ⟨k0, v0⟩ := kv
      by_cases h0 : k0 = k'
      · subst h0
        simp [dictUpdate, dictGet, h]
      · simp [dictUpdate, dictGet, h0, ih]

theorem dictUpdate_eq_self {m : Dict} {k v : String} (h : dictGet m k = some v) :
    dictUpdate m k v = m := by
  induction m with
  | nil => simp [dictGet] at h
  | cons kv rest ih =>
      obtain ⟨k0, v0⟩ := kv
      by_cases h0 : k0 = k
      · subst h0
        simp [dictGet] at h
        simp [dictUpdate, h]
      · simp [dictGet, h0] at h
        simp [dictUpdate, h0, ih h]

theorem mapValuesM_keys {f : String → Except Err (List Char)} :
    ∀ {d d' : Dict}, mapValuesM f d = .ok d' → d'.map Prod.fst = d.map Prod.fst := by
  intro d
  induction d with
  | nil => intro d' h; simp [mapValuesM] at h; simp [← h]
  | cons kv rest ih =>
      intro d' h
      obtain ⟨k, v⟩ := kv
      simp only [mapValuesM] at h
      cases hf : f v with
      | error e => rw [hf] at h; exact absurd h (by simp)
      | ok v' =>
          rw [hf] at h
          cases hr : mapValuesM f rest with
          | error e => rw [hr] at h; exact absurd h (by simp)
          | ok rest' =>
              rw [hr] at h
              simp only [Except.ok.injEq] at h
              subst h
              simp [ih hr]

theorem parse_environment_keys {fields : List (String × EnvValue)} {context : Dict}
    {topics : List String} {pathsep : String} {parsed : Dict}
    (h : parse_environment fields context topics pathsep = .ok parsed) :
    parsed.map Prod.fst = fields.map Prod.fst := by
  simp only [parse_environment] at h
  cases h2 : mapValuesM (fun v => subDollar context v.data)
      (resolveEnvironmentLists pathsep fields) with
  | error e => rw [h2] at h; exact absurd h (by simp)
  | ok f2 =>
      rw [h2] at h
      have k1 := mapValuesM_keys h2
      have k2 := mapValuesM_keys h
      rw [k2, k1]
      simp [resolveEnvironmentLists]

theorem dictGet_foldl_update_not_mem {parsed : Dict} {d : String}
    (h : d ∉ parsed.map Prod.fst) :
    ∀ ctx : Dict,
      dictGet (parsed.foldl (fun c kv => dictUpdate c kv.1 kv.2) ctx) d = dictGet ctx d := by
  induction parsed with
  | nil => intro ctx; rfl
  | cons kv rest ih =>
      intro ctx
      simp only [List.map_cons, List.mem_cons] at h
      push_neg at h
      simp only [List.foldl_cons]
      rw [ih h.2 (dictUpdate ctx kv.1 kv.2), dictGet_update_ne _ _ (Ne.symm h.1)]

/-- Claim C1, counterexample: with redirect table sending FOO to DEST,
an environment section assigning FOO the value bar, and a starting
context where FOO is old, the pipeline of the enter command leaves
DEST holding old while the final value of FOO is bar, so the value
copied by redirection is not the final expanded value of its source:
redirection ran before the environment passes, not after. -/
theorem claim_C1_counterexample :
    in_compose [("FOO", "DEST")] (some [("FOO", EnvValue.str "bar")]) ["t"]
        [("FOO", "old")] ":"
      = .ok [("FOO", "bar"), ("DEST", "old"), ("BE_ENVIRONMENT", "FOO")]
    ∧ dictGet [("FOO", "bar"), ("DEST", "old"), ("BE_ENVIRONMENT", "FOO")] "DEST"
      = some "old"
    ∧ dictGet [("FOO", "bar"), ("DEST", "old"), ("BE_ENVIRONMENT", "FOO")] "FOO"
      = some "bar"
    ∧ ("old" : String) ≠ "bar" :=
  ⟨rfl, rfl, rfl, by decide⟩

/-- Claim C1, amended: in the enter pipeline the redirection step
executes BEFORE the three expansion passes, so a redirect pair whose
source is a context key copies the pre-expansion value of the source;
a destination key that the parsed environment does not overwrite still
holds that pre-expansion value in the final context. -/
theorem claim_C1_redirect_before_env (s d v : String) (ctx : Dict)
    (fields : List (String × EnvValue)) (topics : List String) (sep : String)
    (final : Dict)
    (hpos : matchPosKey s.data = false)
    (hsrc : dictGet ctx s = some v)
    (hd1 : d ∉ fields.map Prod.fst)
    (hd2 : d ≠ "BE_ENVIRONMENT")
    (hrun : in_compose [(s, d)] (some fields) topics ctx sep = .ok final) :
    dictGet final d = some v := by
  simp only [in_compose, parse_redirect, hpos, Bool.false_eq_true, if_false, hsrc] at hrun
  cases hpe : parse_environment fields (dictUpdate ctx d v) topics sep with
  | error e => rw [hpe] at hrun; exact absurd hrun (by simp)
  | ok parsed =>
      rw [hpe] at hrun
      simp only [Except.ok.injEq] at hrun
      subst hrun
      have hkeys : d ∉ parsed.map Prod.fst := by
        rw [parse_environment_keys hpe]; exact hd1
      rw [dictGet_foldl_update_not_mem hkeys,
        dictGet_update_ne _ _ (Ne.symm hd2), dictGet_update_self]

/-- Claim C1, witness for the amended theorem at a concrete input. -/
theorem claim_C1_witness :
    dictGet [("A", "x"), ("B", "x"), ("BE_ENVIRONMENT", "K"), ("K", "k")] "B"
      = some "x" :=
  claim_C1_redirect_before_env "A" "B" "x" [("A", "x")] [("K", EnvValue.str "k")]
    [] ":" _ (by decide) rfl (by decide) (by decide) rfl

/-- Claim C2, counterexample: on a platform whose path separator is
the colon the settings value dollar-PATH-semicolon-extra resolves to
/usr/bin;extra, not /usr/bin:extra: the literal semicolon is not
normalized before variable substitution. -/
theorem claim_C2_counterexample :
    parse_environment [("X", EnvValue.str "$PATH;extra")] [("PATH", "/usr/bin")]
        [] ":" = .ok [("X", "/usr/bin;extra")]
    ∧ ("/usr/bin;extra" : String) ≠ "/usr/bin:extra" :=
  ⟨rfl, by decide⟩

/-- Claim C2, amended: environment composition performs no separator
normalization at all; the settings value resolves to /usr/bin;extra
whatever the platform path separator is.  The helper that would
normalize separators exists in the external module but is never
invoked. -/
theorem claim_C2_no_pathsep_normalization (pathsep : String) :
    parse_environment [("X", EnvValue.str "$PATH;extra")] [("PATH", "/usr/bin")]
      [] pathsep = .ok [("X", "/usr/bin;extra")] := rfl

/-- Claim C3, counterexample: a first call with an inventory binding
item x under A fills the cache; a second call with a different
inventory binding x under B returns the stale cached binding A even
though the pure inverted lookup for the second inventory yields B, so
the cache can change the returned result. -/
theorem claim_C3_counterexample :
    binding_from_item [] [("A", [InvItem.plain (Scalar.s "x")])] "x"
      = .ok ("A", [("x", "A")])
    ∧ binding_from_item [("x", "A")] [("B", [InvItem.plain (Scalar.s "x")])] "x"
      = .ok ("A", [("x", "A")])
    ∧ pureBinding [("B", [InvItem.plain (Scalar.s "x")])] "x" = some "B"
    ∧ ("A" : String) ≠ "B" :=
  ⟨rfl, rfl, rfl, by decide⟩

/-- Claim C3, amended: binding_from_item agrees with the pure
computation of inverting the inventory and looking the item up
whenever the cache holds no entry for the item that disagrees with
that pure lookup; in particular this holds when every call of the run
uses the same inventory.  With a stale entry from a different
inventory the results can differ. -/
theorem claim_C3_cache_consistent (cache : Dict) (inventory : Inventory)
    (item : String)
    (h : dictGet cache item = none ∨ dictGet cache item = pureBinding inventory item) :
    bindingResult (binding_from_item cache inventory item)
      = pureBinding inventory item := by
  cases hc : dictGet cache item with
  | some b =>
      rcases h with h | h
      · rw [hc] at h; exact absurd h (by simp)
      · rw [hc] at h
        simp only [binding_from_item, hc, bindingResult]
        exact h
  | none =>
      simp only [binding_from_item, hc]
      cases hb : dictGet (invert_inventory inventory).1 item with
      | some b => simp [bindingResult, pureBinding, hb]
      | none => simp [bindingResult, pureBinding, hb]

/-- Claim C3, witness for the amended theorem at a concrete input. -/
theorem claim_C3_witness :
    bindingResult (binding_from_item [] [("A", [InvItem.plain (Scalar.s "x")])] "x")
      = pureBinding [("A", [InvItem.plain (Scalar.s "x")])] "x" :=
  claim_C3_cache_consistent [] [("A", [InvItem.plain (Scalar.s "x")])] "x" (Or.inl rfl)

/-- Claim C8: partial resolution of the pattern of scenario five with
two topics truncates to the expected pattern with the literal tail
appended, and whenever no multi-digit positional placeholder remains
past the truncation point the truncation core returns no result. -/
theorem claim_C8_trim :
    list_template_trim "{0}/{1}/assets/{2}" ["proj", "item"]
      = .ok (some "{0}/{1}/assets")
    ∧ ∀ (pattern : String) (topics : List String) (i : Nat),
        strFind pattern.data (toString ((topics.length : Int) - 1)).data = some i →
        findallMultiPos (pattern.data.drop (i + 2)) = [] →
        list_template_trim pattern topics = .ok none := by
  refine ⟨rfl, ?_⟩
  intro pattern topics i h1 h2
  simp only [list_template_trim, h1, h2, if_true]

/-- Claim C8, witness for the universally quantified part at a
concrete input. -/
theorem claim_C8_witness : list_template_trim "{0}/{1}" ["a", "b"] = .ok none :=
  claim_C8_trim.2 "{0}/{1}" ["a", "b"] 5 rfl rfl

theorem dictGet_append_single (m : Dict) (i b id : String) :
    dictGet (m ++ [(i, b)]) id =
      match dictGet m id with
      | some v => some v
      | none => if i = id then some b else none := by
  induction m with
  | nil => simp [dictGet]
  | cons kv rest ih =>
      obtain ⟨k0, v0⟩ := kv
      by_cases h0 : k0 = id
      · simp [dictGet, h0]
      · simp [dictGet, h0, ih]

theorem invert_foldl_lookup (pairs : List (String × String)) :
    ∀ (inv0 : Dict) (w0 : List (String × String)) (id : String),
      dictGet ((pairs.foldl invertStep (inv0, w0)).1) id
        = if (dictGet inv0 id).isSome then dictGet inv0 id
          else firstIn pairs id := by
  induction pairs with
  | nil =>
      intro inv0 w0 id
      simp only [List.foldl_nil, firstIn]
      cases dictGet inv0 id <;> simp
  | cons p rest ih =>
      intro inv0 w0 id
      obtain ⟨b, i⟩ := p
      simp only [List.foldl_cons]
      by_cases hmem : (dictGet inv0 i).isSome
      · rw [show invertStep (inv0, w0) (b, i) = (inv0, w0 ++ [(b, i)]) from by
          simp [invertStep, hmem]]
        rw [ih inv0 (w0 ++ [(b, i)]) id]
        by_cases hid : i = id
        · subst hid
          simp [hmem, firstIn]
        · simp [firstIn, hid]
      · rw [show invertStep (inv0, w0) (b, i) = (inv0 ++ [(i, b)], w0) from by
          simp [invertStep, hmem]]
        rw [ih (inv0 ++ [(i, b)]) w0 id]
        rw [dictGet_append_single]
        cases hv : dictGet inv0 i with
        | some v => rw [hv] at hmem; simp at hmem
        | none =>
            by_cases hid : i = id
            · subst hid
              simp [hv, firstIn]
            · simp only [firstIn, hid, if_false]
              cases hw : dictGet inv0 id <;> simp [hw]

theorem invert_foldl_warnings (pairs : List (String × String)) :
    ∀ (inv0 : Dict) (w0 : List (String × String)) (id : String),
      occCount ((pairs.foldl invertStep (inv0, w0)).2) id
        = occCount w0 id +
          (if (dictGet inv0 id).isSome then occCount pairs id
           else occCount pairs id - 1) := by
  induction pairs with
  | nil =>
      intro inv0 w0 id
      simp only [List.foldl_nil, occCount, List.countP_nil]
      cases dictGet inv0 id <;> simp
  | cons p rest ih =>
      intro inv0 w0 id
      obtain ⟨b, i⟩ := p
      simp only [List.foldl_cons]
      have hcons : occCount ((b, i) :: rest) id
          = (if i = id then 1 else 0) + occCount rest id := by
        simp only [occCount, List.countP_cons]
        by_cases hid : i = id <;> simp [hid] <;> omega
      by_cases hmem : (dictGet inv0 i).isSome
      · rw [show invertStep (inv0, w0) (b, i) = (inv0, w0 ++ [(b, i)]) from by
          simp [invertStep, hmem]]
        rw [ih inv0 (w0 ++ [(b, i)]) id]
        have happ : occCount (w0 ++ [(b, i)]) id
            = occCount w0 id + (if i = id then 1 else 0) := by
          simp only [occCount, List.countP_append, List.countP_cons, List.countP_nil]
          by_cases hid : i = id <;> simp [hid]
        rw [happ, hcons]
        by_cases hid : i = id
        · subst hid
          simp only [hmem, if_true, if_pos rfl]
          omega
        · simp only [hid, if_false]
          cases hv : dictGet inv0 id
          · simp only [hv, Option.isSome_none, Bool.false_eq_true, if_false]
            omega
          · simp only [hv, Option.isSome_some, if_true]
            omega
      · rw [show invertStep (inv0, w0) (b, i) = (inv0 ++ [(i, b)], w0) from by
          simp [invertStep, hmem]]
        rw [ih (inv0 ++ [(i, b)]) w0 id]
        rw [dictGet_append_single, hcons]
        cases hv : dictGet inv0 i with
        | some v => rw [hv] at hmem; simp at hmem
        | none =>
            by_cases hid : i = id
            · subst hid
              simp only [hv, Option.isSome_none, Bool.false_eq_true, if_false,
                Option.isSome_some, if_true, if_pos rfl]
              omega
            · simp only [hid, if_false]
              cases hw : dictGet inv0 id
              · simp only [hw, Option.isSome_none, Bool.false_eq_true, if_false]
                omega
              · simp only [hw, Option.isSome_some, if_true]
                omega

/-- Claim C7: when an item identifier occurs exactly twice in the
flattened inventory, the inverted inventory maps it to the binding of
its first occurrence, exactly one duplicate warning is emitted for it,
and every item identifier of the inventory is mapped to the binding of
its own first occurrence, so no earlier entry is lost. -/
theorem claim_C7_first_wins (inventory : Inventory) (id : String)
    (h2 : occCount (flattenInv inventory) id = 2) :
    dictGet (invert_inventory inventory).1 id = firstIn (flattenInv inventory) id
    ∧ occCount (invert_inventory inventory).2 id = 1
    ∧ ∀ id' : String,
        dictGet (invert_inventory inventory).1 id'
          = firstIn (flattenInv inventory) id' := by
  refine ⟨?_, ?_, ?_⟩
  · rw [invert_inventory, invert_foldl_lookup]
    simp [dictGet]
  · rw [invert_inventory, invert_foldl_warnings]
    have hn : dictGet ([] : Dict) id = none := rfl
    have h0 : occCount ([] : List (String × String)) id = 0 := rfl
    rw [hn, h0, h2]
    simp
  · intro id'
    rw [invert_inventory, invert_foldl_lookup]
    simp [dictGet]

/-- Claim C7, witness at a concrete inventory in which the item peter
occurs under the asset and shot bindings. -/
theorem claim_C7_witness :
    dictGet (invert_inventory
        [("asset", [InvItem.plain (Scalar.s "peter")]),
         ("shot", [InvItem.plain (Scalar.s "peter")])]).1 "peter"
      = firstIn (flattenInv
        [("asset", [InvItem.plain (Scalar.s "peter")]),
         ("shot", [InvItem.plain (Scalar.s "peter")])]) "peter"
    ∧ occCount (invert_inventory
        [("asset", [InvItem.plain (Scalar.s "peter")]),
         ("shot", [InvItem.plain (Scalar.s "peter")])]).2 "peter" = 1 :=
  ⟨(claim_C7_first_wins
      [("asset", [InvItem.plain (Scalar.s "peter")]),
       ("shot", [InvItem.plain (Scalar.s "peter")])] "peter" (by decide)).1,
   (claim_C7_first_wins
      [("asset", [InvItem.plain (Scalar.s "peter")]),
       ("shot", [InvItem.plain (Scalar.s "peter")])] "peter" (by decide)).2.1⟩

theorem isDigit_not_brace {c : Char} (h : c.isDigit = true) : isBraceChar c = false := by
  by_cases h1 : c = '\x7b'
  · subst h1; exact absurd h (by decide)
  · by_cases h2 : c = '\x7d'
    · subst h2; exact absurd h (by decide)
    · simp [isBraceChar, h1, h2]

theorem isDigit_not_space {c : Char} (h : c.isDigit = true) : isSpaceChar c = false := by
  have hn : ∀ d : Char, d.isDigit = false → ¬c = d := by
    intro d hdig he
    subst he
    rw [hdig] at h
    exact Bool.noConfusion h
  simp [isSpaceChar, hn ' ' (by decide), hn '\t' (by decide), hn '\n' (by decide),
    hn '\r' (by decide), hn '\x0b' (by decide), hn '\x0c' (by decide)]

theorem dropWhile_all_false {p : Char → Bool} :
    ∀ {l : List Char}, (∀ x ∈ l, p x = false) → l.dropWhile p = l := by
  intro l h
  cases l with
  | nil => rfl
  | cons c cs =>
      rw [List.dropWhile_cons, h c (by simp)]
      simp

theorem matchPosKeyDigits_append {s : List Char} (hd : s.all Char.isDigit = true) :
    matchPosKeyDigits (s ++ ['\x7d']) = true := by
  induction s with
  | nil => rfl
  | cons c cs ih =>
      simp only [List.all_cons, Bool.and_eq_true] at hd
      by_cases hc : c = '\x7d'
      · subst hc; exact absurd hd.1 (by decide)
      · simp only [List.cons_append]
        rw [matchPosKeyDigits.eq_def]
        split
        · rfl
        · next cc tl hnot heq =>
            injection heq with h1 h2
            subst h1
            subst h2
            rw [hd.1]
            simp only [if_true]
            exact ih hd.2
        · next heq => simp at heq

theorem dropWhile_of_all_digit {p : Char → Bool} {s : List Char}
    (hall : s.all Char.isDigit = true)
    (hp : ∀ c : Char, c.isDigit = true → p c = false) :
    s.dropWhile p = s := by
  apply dropWhile_all_false
  intro x hx
  exact hp x (by
    rw [List.all_eq_true] at hall
    exact hall x hx)

theorem pyStripBraces_digits {s : List Char} (hne : s ≠ [])
    (hd : s.all Char.isDigit = true) :
    pyStripBraces ('\x7b' :: (s ++ ['\x7d'])) = s := by
  unfold pyStripBraces
  obtain ⟨c, cs, rfl⟩ : ∃ c cs, s = c :: cs := by
    cases s with
    | nil => exact absurd rfl hne
    | cons c cs => exact ⟨c, cs, rfl⟩
  simp only [List.all_cons, Bool.and_eq_true] at hd
  have h1 : List.dropWhile isBraceChar ('\x7b' :: (c :: cs ++ ['\x7d']))
      = c :: cs ++ ['\x7d'] := by
    simp only [List.cons_append, List.dropWhile_cons]
    rw [show isBraceChar '\x7b' = true from rfl,
      show isBraceChar c = false from isDigit_not_brace hd.1]
    simp
  rw [h1]
  have h2 : (c :: cs ++ ['\x7d']).reverse = '\x7d' :: (c :: cs).reverse := by
    simp
  rw [h2]
  have h3 : List.dropWhile isBraceChar ('\x7d' :: (c :: cs).reverse)
      = List.dropWhile isBraceChar ((c :: cs).reverse) := by
    rw [List.dropWhile_cons]
    simp [isBraceChar]
  rw [h3]
  have h4 : List.dropWhile isBraceChar ((c :: cs).reverse) = (c :: cs).reverse := by
    apply dropWhile_all_false
    intro x hx
    rw [List.mem_reverse] at hx
    apply isDigit_not_brace
    have := List.all_eq_true.mp (show (c :: cs).all Char.isDigit = true by
      simp [List.all_cons, hd.1, hd.2])
    exact this x hx
  rw [h4, List.reverse_reverse]

theorem pyInt_digits {s : List Char} (hne : s ≠ [])
    (hd : s.all Char.isDigit = true) :
    pyInt s = .ok ((digitsVal s : Nat) : Int) := by
  have htrim : ((s.dropWhile isSpaceChar).reverse.dropWhile isSpaceChar).reverse = s := by
    rw [dropWhile_of_all_digit hd (fun c hc => isDigit_not_space hc)]
    rw [dropWhile_of_all_digit (by
        rw [List.all_eq_true]
        intro x hx
        rw [List.mem_reverse] at hx
        exact List.all_eq_true.mp hd x hx)
      (fun c hc => isDigit_not_space hc)]
    exact List.reverse_reverse s
  obtain ⟨c, cs, rfl⟩ : ∃ c cs, s = c :: cs := by
    cases s with
    | nil => exact absurd rfl hne
    | cons c cs => exact ⟨c, cs, rfl⟩
  have hcdash : ¬c = '-' := by
    intro he
    have := List.all_eq_true.mp hd c (by simp)
    rw [he] at this
    exact absurd this (by decide)
  have hcplus : ¬c = '+' := by
    intro he
    have := List.all_eq_true.mp hd c (by simp)
    rw [he] at this
    exact absurd this (by decide)
  rw [pyInt, htrim]
  split
  · next heq =>
      injection heq with h1 _
      exact absurd h1 hcdash
  · next heq =>
      injection heq with h1 _
      exact absurd h1 hcplus
  · next ds h1 h2 =>
      rw [if_pos ⟨hne, hd⟩]

theorem item_from_topics_digits {s : List Char} (topics : List String)
    (hne : s ≠ []) (hd : s.all Char.isDigit = true) :
    item_from_topics (String.mk ('\x7b' :: (s ++ ['\x7d']))) topics
      = match topics.get? (digitsVal s) with
        | some v => .ok v
        | none => .error (.indexErrorArg ((digitsVal s : Nat) + 1)) := by
  have hmatch : matchPosKey ('\x7b' :: (s ++ ['\x7d'])) = true := by
    obtain ⟨c, cs, rfl⟩ : ∃ c cs, s = c :: cs := by
      cases s with
      | nil => exact absurd rfl hne
      | cons c cs => exact ⟨c, cs, rfl⟩
    simp only [List.all_cons, Bool.and_eq_true] at hd
    simp only [List.cons_append, matchPosKey, hd.1, if_true]
    exact matchPosKeyDigits_append hd.2
  simp only [item_from_topics, String.mk, hmatch, if_true]
  rw [pyStripBraces_digits hne hd, pyInt_digits hne hd]
  have hnn : ¬((digitsVal s : Nat) : Int) < 0 := by omega
  simp only [pyListIdx, hnn, if_false, Int.toNat_natCast]
  cases hg : topics.get? (digitsVal s) with
  | some v => simp [hg]
  | none => simp [hg]

/-- Claim C5, counterexample: the selector brace-zero-brace-x is not
of the literal positional form, yet item_from_topics fails with a
ValueError (from int applied to the brace-stripped remainder), not
with the configuration-error exit. -/
theorem claim_C5_counterexample :
    item_from_topics "{0}x" ["a"] = .error .valueError
    ∧ ∀ (code : Nat) (msg : String), Err.valueError ≠ Err.exitCode code msg :=
  ⟨rfl, fun _ _ h => Err.noConfusion h⟩

/-- Claim C5, amended: a key selector fails with the
configuration-error exit exactly when its START does not match the
positional form (re.match anchors only at the start); a selector that
begins with the positional form but carries trailing characters can
raise ValueError or even succeed instead.  A selector that is exactly
the literal form with index inside range returns the topic at that
index. -/
theorem claim_C5_key_selector :
    (∀ (key : String) (topics : List String),
        matchPosKey key.data = false →
        item_from_topics key topics
          = .error (.exitCode PROJECT_ERROR "be.yaml template key not recognised"))
    ∧ ∀ (s : List Char) (topics : List String) (h : digitsVal s < topics.length),
        s ≠ [] → s.all Char.isDigit = true →
        item_from_topics (String.mk ('\x7b' :: (s ++ ['\x7d']))) topics
          = .ok (topics.get ⟨digitsVal s, h⟩) := by
  constructor
  · intro key topics hm
    simp [item_from_topics, hm]
  · intro s topics h hne hd
    rw [item_from_topics_digits topics hne hd]
    rw [List.get?_eq_get h]

/-- Claim C5, witness for both amended parts at concrete inputs. -/
theorem claim_C5_witness :
    item_from_topics "xyz" ["a"]
      = .error (.exitCode PROJECT_ERROR "be.yaml template key not recognised")
    ∧ item_from_topics (String.mk ('\x7b' :: (['1'] ++ ['\x7d']))) ["a", "b"]
      = .ok (["a", "b"].get ⟨digitsVal ['1'], by decide⟩) :=
  ⟨claim_C5_key_selector.1 "xyz" ["a"] (by decide),
   claim_C5_key_selector.2 ['1'] ["a", "b"] (by decide) (by decide) (by decide)⟩

/-- Claim C6: selecting topic index N with too few topics fails with
the IndexError re-raised to carry the minimum required count N plus
one, and path formatting against a pattern whose highest positional
placeholder is H with fewer than H plus one topics fails with the
USER_ERROR exit whose message carries H plus one. -/
theorem claim_C6_insufficient_topics :
    (∀ (s : List Char) (topics : List String),
        s ≠ [] → s.all Char.isDigit = true →
        topics.length ≤ digitsVal s →
        item_from_topics (String.mk ('\x7b' :: (s ++ ['\x7d']))) topics
          = .error (.indexErrorArg ((digitsVal s : Nat) + 1)))
    ∧ ∀ (cache templates : Dict) (inventory : Inventory) (context : Dict)
        (topics : List String) (item binding : String) (cache2 : Dict)
        (pattern : String) (highest : Int),
        binding_from_item cache inventory item = .ok (binding, cache2) →
        pattern_from_template templates binding = .ok pattern →
        find_highest_position (find_positional_arguments pattern.data) = .ok highest →
        (topics.length : Int) - 1 < highest →
        pos_development_directory cache templates inventory context topics item
          = .error (.exitCode USER_ERROR (insufficientMsg item (highest + 1))) := by
  constructor
  · intro s topics hne hd hlen
    rw [item_from_topics_digits topics hne hd]
    rw [List.get?_eq_none.mpr hlen]
  · intro cache templates inventory context topics item binding cache2 pattern
      highest hb hp hh hlt
    simp only [pos_development_directory, hb, hp, hh, if_pos hlt]

/-- Claim C6, witness for both parts at concrete inputs. -/
theorem claim_C6_witness :
    item_from_topics (String.mk ('\x7b' :: (['2'] ++ ['\x7d']))) ["a", "b"]
      = .error (.indexErrorArg ((digitsVal ['2'] : Nat) + 1))
    ∧ pos_development_directory [] [("asset", "{0}/{1}/{2}")]
        [("asset", [InvItem.plain (Scalar.s "a")])] [] ["a", "b"] "a"
      = .error (.exitCode USER_ERROR (insufficientMsg "a" (2 + 1))) :=
  ⟨claim_C6_insufficient_topics.1 ['2'] ["a", "b"] (by decide) (by decide) (by decide),
   claim_C6_insufficient_topics.2 [] [("asset", "{0}/{1}/{2}")]
     [("asset", [InvItem.plain (Scalar.s "a")])] [] ["a", "b"] "a" "asset"
     [("a", "asset")] "{0}/{1}/{2}" 2 rfl rfl rfl (by decide)⟩

/-- Claim C10: when the selected pattern contains no positional
placeholder in the single-digit-or-bare form, the highest-position
computation indexes an empty list and pos_development_directory fails
with the raw IndexError, for every choice of topics and context,
instead of returning a path or a structured message-and-exit error. -/
theorem claim_C10_no_positional_crash (cache templates : Dict)
    (inventory : Inventory) (context : Dict) (topics : List String)
    (item binding : String) (cache2 : Dict) (pattern : String)
    (hb : binding_from_item cache inventory item = .ok (binding, cache2))
    (hp : pattern_from_template templates binding = .ok pattern)
    (hnone : find_positional_arguments pattern.data = []) :
    pos_development_directory cache templates inventory context topics item
      = .error .indexError := by
  simp only [pos_development_directory, hb, hp, hnone, find_highest_position,
    pySortedLast]

/-- Claim C10, witness at a template whose pattern holds only named
placeholders. -/
theorem claim_C10_witness :
    pos_development_directory [] [("asset", "{cwd}/x")]
      [("asset", [InvItem.plain (Scalar.s "a")])] [] [] "a"
      = .error .indexError :=
  claim_C10_no_positional_crash [] [("asset", "{cwd}/x")]
    [("asset", [InvItem.plain (Scalar.s "a")])] [] [] "a" "asset"
    [("a", "asset")] "{cwd}/x" rfl rfl rfl

theorem containsRefTokenImpl_cons {fuel : Nat} {c : Char} {rest : List Char}
    (hguard : ∀ rest', c = '\x7b' → rest = '@' :: rest' → False) :
    containsRefTokenImpl (fuel + 1) (c :: rest) = containsRefTokenImpl fuel rest := by
  rw [containsRefTokenImpl.eq_def]
  split
  · rename_i heq; exact absurd heq (by simp)
  · rename_i heq _; omega
  · rename_i f r tail hfe heq
    injection heq with h1 h2
    exact (hguard tail h1 h2).elim
  · rename_i f2 c2 r2 hg2 hfe hce
    injection hce with h1 h2
    have hf : f2 = fuel := by omega
    subst hf
    subst h2
    rfl

theorem subRefsImpl_cons (tmpl : Dict) {fuel : Nat} {c : Char} {rest : List Char}
    (hguard : ∀ rest', c = '\x7b' → rest = '@' :: rest' → False) :
    subRefsImpl tmpl (fuel + 1) (c :: rest)
      = match subRefsImpl tmpl fuel rest with
        | .error e => .error e
        | .ok out => .ok (c :: out) := by
  rw [subRefsImpl.eq_def]
  split
  · rename_i heq; exact absurd heq (by simp)
  · rename_i heq _; omega
  · rename_i f r tail hfe heq
    injection heq with h1 h2
    exact (hguard tail h1 h2).elim
  · rename_i f2 c2 r2 hg2 hfe hce
    injection hce with h1 h2
    have hf : f2 = fuel := by omega
    subst hf
    subst h2
    subst h1
    rfl

theorem containsRefTokenImpl_open {fuel : Nat} {rest : List Char}
    (hguard : ∀ tail, rest.dropWhile isWordChar = '\x7d' :: tail → False) :
    containsRefTokenImpl (fuel + 1) ('\x7b' :: '@' :: rest)
      = containsRefTokenImpl fuel (rest.dropWhile isWordChar) := by
  simp only [containsRefTokenImpl]

theorem subRefsImpl_open (tmpl : Dict) {fuel : Nat} {rest : List Char}
    (hguard : ∀ tail, rest.dropWhile isWordChar = '\x7d' :: tail → False) :
    subRefsImpl tmpl (fuel + 1) ('\x7b' :: '@' :: rest)
      = match subRefsImpl tmpl fuel (rest.dropWhile isWordChar) with
        | .error e => .error e
        | .ok out => .ok ('\x7b' :: '@' :: (rest.takeWhile isWordChar ++ out)) := by
  simp only [subRefsImpl]

theorem subRefsImpl_noToken (tmpl : Dict) :
    ∀ (fuel : Nat) (s : List Char), s.length ≤ fuel →
      containsRefTokenImpl fuel s = false →
      subRefsImpl tmpl fuel s = .ok s := by
  intro fuel s
  induction fuel, s using subRefsImpl.induct tmpl with
  | case1 t => intro _ _; simp [subRefsImpl]
  | case2 head tail => intro h _; simp at h
  | case3 fuel rest run tail hdrop hrun e herr ih =>
      intro hlen hc
      exfalso
      have hrun' : List.takeWhile isWordChar rest = [] := hrun
      have hlsuf := (List.dropWhile_suffix (l := rest) isWordChar).length_le
      rw [hdrop] at hlsuf
      have hlen' : ('\x7d' :: tail).length ≤ fuel := by
        simp only [List.length_cons] at hlsuf hlen ⊢
        omega
      have hc' : containsRefTokenImpl fuel ('\x7d' :: tail) = false := by
        simp only [containsRefTokenImpl, hdrop, hrun', if_pos rfl] at hc
        exact hc
      have := ih hlen' hc'
      rw [this] at herr
      exact Except.noConfusion herr
  | case4 fuel rest run tail hdrop hrun out hok ih =>
      intro hlen hc
      have hrun' : List.takeWhile isWordChar rest = [] := hrun
      have hlsuf := (List.dropWhile_suffix (l := rest) isWordChar).length_le
      rw [hdrop] at hlsuf
      have hlen' : ('\x7d' :: tail).length ≤ fuel := by
        simp only [List.length_cons] at hlsuf hlen ⊢
        omega
      have hc' : containsRefTokenImpl fuel ('\x7d' :: tail) = false := by
        simp only [containsRefTokenImpl, hdrop, hrun', if_pos rfl] at hc
        exact hc
      have hres := ih hlen' hc'
      rw [hres] at hok
      injection hok with hout
      have hrest : rest = '\x7d' :: tail := by
        conv_lhs => rw [← List.takeWhile_append_dropWhile (p := isWordChar) (l := rest)]
        rw [hrun', hdrop]
        rfl
      simp only [subRefsImpl, hdrop, hrun', if_pos rfl, hres]
      rw [hrest]
      simp
  | case5 fuel rest run tail hdrop hrun hget =>
      intro hlen hc
      exfalso
      have hrun' : ¬List.takeWhile isWordChar rest = [] := hrun
      simp only [containsRefTokenImpl, hdrop, hrun', if_false] at hc
      exact Bool.noConfusion hc
  | case6 fuel rest run tail hdrop hrun v hget e herr ih =>
      intro hlen hc
      exfalso
      have hrun' : ¬List.takeWhile isWordChar rest = [] := hrun
      simp only [containsRefTokenImpl, hdrop, hrun', if_false] at hc
      exact Bool.noConfusion hc
  | case7 fuel rest run tail hdrop hrun v hget out hok ih =>
      intro hlen hc
      exfalso
      have hrun' : ¬List.takeWhile isWordChar rest = [] := hrun
      simp only [containsRefTokenImpl, hdrop, hrun', if_false] at hc
      exact Bool.noConfusion hc
  | case8 fuel rest e hguard herr ih =>
      intro hlen hc
      exfalso
      have hlsuf := (List.dropWhile_suffix (l := rest) isWordChar).length_le
      have hlen' : (rest.dropWhile isWordChar).length ≤ fuel := by
        simp only [List.length_cons] at hlen
        omega
      have hc' : containsRefTokenImpl fuel (rest.dropWhile isWordChar) = false := by
        rw [containsRefTokenImpl_open hguard] at hc
        exact hc
      have := ih hlen' hc'
      rw [this] at herr
      exact Except.noConfusion herr
  | case9 fuel rest out hguard hok ih =>
      intro hlen hc
      have hlsuf := (List.dropWhile_suffix (l := rest) isWordChar).length_le
      have hlen' : (rest.dropWhile isWordChar).length ≤ fuel := by
        simp only [List.length_cons] at hlen
        omega
      have hc' : containsRefTokenImpl fuel (rest.dropWhile isWordChar) = false := by
        rw [containsRefTokenImpl_open hguard] at hc
        exact hc
      have hres := ih hlen' hc'
      rw [subRefsImpl_open tmpl hguard, hres]
      simp [List.takeWhile_append_dropWhile]
  | case10 fuel c rest hguard e herr ih =>
      intro hlen hc
      exfalso
      have hlen' : rest.length ≤ fuel := by
        simp only [List.length_cons] at hlen
        omega
      have hc' : containsRefTokenImpl fuel rest = false := by
        rw [containsRefTokenImpl_cons hguard] at hc
        exact hc
      have := ih hlen' hc'
      rw [this] at herr
      exact Except.noConfusion herr
  | case11 fuel c rest hguard out hok ih =>
      intro hlen hc
      have hlen' : rest.length ≤ fuel := by
        simp only [List.length_cons] at hlen
        omega
      have hc' : containsRefTokenImpl fuel rest = false := by
        rw [containsRefTokenImpl_cons hguard] at hc
        exact hc
      have hres := ih hlen' hc'
      rw [subRefsImpl_cons tmpl hguard, hres]

theorem dictGet_of_mem_nodup :
    ∀ {m : Dict} {k v : String}, (m.map Prod.fst).Nodup → (k, v) ∈ m →
      dictGet m k = some v := by
  intro m
  induction m with
  | nil => intro k v _ hmem; simp at hmem
  | cons kv rest ih =>
      intro k v hnodup hmem
      obtain ⟨k0, v0⟩ := kv
      simp only [List.map_cons, List.nodup_cons] at hnodup
      rcases List.mem_cons.mp hmem with hhead | htail
      · rw [show k0 = k from (congrArg Prod.fst hhead).symm,
          show v0 = v from (congrArg Prod.snd hhead).symm]
        simp [dictGet]
      · have hk0 : ¬k0 = k := by
          intro he
          apply hnodup.1
          apply List.mem_map.mpr
          exact ⟨(k, v), htail, he.symm⟩
        simp only [dictGet, hk0, if_false]
        exact ih hnodup.2 htail

theorem resolveRefsAux_noToken (tmpl : Dict) :
    ∀ entries : List (String × String),
      (∀ kv ∈ entries, containsRefToken (kv.2.data) = false) →
      (∀ kv ∈ entries, dictGet tmpl kv.1 = some kv.2) →
      resolveRefsAux entries tmpl = .ok tmpl := by
  intro entries
  induction entries with
  | nil => intro _ _; rfl
  | cons kv rest ih =>
      intro htok hmem
      obtain ⟨key, pat⟩ := kv
      have h1 : subRefs tmpl pat.data = .ok pat.data :=
        subRefsImpl_noToken tmpl _ _ (le_refl _) (htok (key, pat) (by simp))
      simp only [resolveRefsAux, subRefs] at h1 ⊢
      rw [h1]
      have h2 : dictUpdate tmpl key (String.mk pat.data) = tmpl := by
        rw [show String.mk pat.data = pat from rfl]
        exact dictUpdate_eq_self (hmem (key, pat) (by simp))
      show resolveRefsAux rest (dictUpdate tmpl key (String.mk pat.data)) = .ok tmpl
      rw [h2]
      exact ih (fun kv h => htok kv (by simp [h])) (fun kv h => hmem kv (by simp [h]))

/-- Claim C9: on a template set in which no pattern contains an
alias-reference token, reference resolution returns the mapping
unchanged. -/
theorem claim_C9_idempotent (templates : Dict)
    (hnodup : (templates.map Prod.fst).Nodup)
    (href : ∀ kv ∈ templates, containsRefToken (kv.2.data) = false) :
    resolve_references templates = .ok templates := by
  apply resolveRefsAux_noToken templates templates href
  intro kv hkv
  exact dictGet_of_mem_nodup hnodup hkv

/-- Claim C9, witness at a concrete reference-free template set. -/
theorem claim_C9_witness :
    resolve_references [("a", "x/y"), ("b", "{key}/z")]
      = .ok [("a", "x/y"), ("b", "{key}/z")] :=
  claim_C9_idempotent [("a", "x/y"), ("b", "{key}/z")] (by decide) (by decide)

theorem pyFormatAux_cons (topics : List String) (fields : Dict) {fuel : Nat}
    {c : Char} {rest : List Char} (h1 : ¬c = '\x7b') (h2 : ¬c = '\x7d') :
    pyFormatAux topics fields (fuel + 1) (c :: rest)
      = match pyFormatAux topics fields fuel rest with
        | .error e => .error e
        | .ok out => .ok (c :: out) := by
  rw [pyFormatAux.eq_def]
  split
  · rename_i heq; simp at heq
  · omega
  · rename_i heq; injection heq with ha hb; exact absurd ha h1
  · rename_i heq; injection heq with ha hb; exact absurd ha h2
  · rename_i heq; injection heq with ha hb; exact absurd ha h2
  · rename_i heq; injection heq with ha hb; exact absurd ha h1
  · rename_i f2 c2 r2 g1 g2 g3 g4 hfe hce
    injection hce with ha hb
    have hf : f2 = fuel := by omega
    subst hf
    subst ha
    subst hb
    rfl

theorem takeWhile_rbrace_append {l t : List Char} (h : ∀ x ∈ l, ¬x = '\x7d') :
    (l ++ '\x7d' :: t).takeWhile (fun c => c != '\x7d') = l := by
  induction l with
  | nil => simp [List.takeWhile_cons]
  | cons a l ih =>
      simp only [List.cons_append, List.takeWhile_cons]
      rw [show (a != '\x7d') = true from by simp [h a (by simp)]]
      simp only [if_true]
      rw [ih (fun x hx => h x (by simp [hx]))]

theorem dropWhile_rbrace_append {l t : List Char} (h : ∀ x ∈ l, ¬x = '\x7d') :
    (l ++ '\x7d' :: t).dropWhile (fun c => c != '\x7d') = '\x7d' :: t := by
  induction l with
  | nil => simp [List.dropWhile_cons]
  | cons a l ih =>
      simp only [List.cons_append, List.dropWhile_cons]
      rw [show (a != '\x7d') = true from by simp [h a (by simp)]]
      simp only [if_true]
      exact ih (fun x hx => h x (by simp [hx]))

theorem wordChar_ne_rbrace {c : Char} (h : isWordChar c = true) : ¬c = '\x7d' := by
  intro he
  subst he
  exact absurd h (by decide)

theorem wordChar_ne_lbrace {c : Char} (h : isWordChar c = true) : ¬c = '\x7b' := by
  intro he
  subst he
  exact absurd h (by decide)

theorem pyFormatAux_field (topics : List String) (fields : Dict) {fuel : Nat}
    {run tail : List Char} (hw : run.all isWordChar = true) (hne : run ≠ []) :
    pyFormatAux topics fields (fuel + 1) ('\x7b' :: (run ++ '\x7d' :: tail))
      = if run ≠ [] ∧ run.all Char.isDigit then
          match topics.get? (digitsVal run) with
          | none => .error .indexError
          | some v =>
              match pyFormatAux topics fields fuel tail with
              | .error e => .error e
              | .ok out => .ok (v.data ++ out)
        else
          match dictGet fields (String.mk run) with
          | none => .error (.keyError (String.mk run) [])
          | some v =>
              match pyFormatAux topics fields fuel tail with
              | .error e => .error e
              | .ok out => .ok (v.data ++ out) := by
  obtain ⟨rc, rcs, rfl⟩ : ∃ rc rcs, run = rc :: rcs := by
    cases run with
    | nil => exact absurd rfl hne
    | cons rc rcs => exact ⟨rc, rcs, rfl⟩
  have hrcw : isWordChar rc = true := by
    simp only [List.all_cons, Bool.and_eq_true] at hw
    exact hw.1
  have hnotbrace : ∀ x ∈ rc :: rcs, ¬x = '\x7d' := by
    intro x hx
    exact wordChar_ne_rbrace (List.all_eq_true.mp hw x hx)
  have htake := takeWhile_rbrace_append (t := tail) hnotbrace
  have hdrop := dropWhile_rbrace_append (t := tail) hnotbrace
  simp only [List.cons_append] at htake hdrop ⊢
  rw [pyFormatAux.eq_def]
  split
  · rename_i heq; simp at heq
  · omega
  · rename_i heq
    injection heq with ha hb
    injection hb with hb1 hb2
    exact absurd hb1 (wordChar_ne_lbrace hrcw)
  · rename_i heq
    injection heq with ha hb
    exact absurd ha (by decide)
  · rename_i heq
    injection heq with ha hb
    exact absurd ha (by decide)
  · rename_i fN rN gN hfe hce
    injection hce with ha hb
    have hf : fN = fuel := by omega
    subst hf
    subst hb
    rw [htake, hdrop]
    rfl
  · rename_i f2 c2 r2 g1 g2 g3 g4 hfe hce
    injection hce with ha hb
    exact (g4 ha.symm).elim

theorem pyFormatAux_parsed (topics : List String) (fields : Dict) :
    ∀ (fuel : Nat) (s : List Char) (toks : List PatTok),
      parseSimpleImpl fuel s = some toks →
      (∀ n, PatTok.pos n ∈ toks →
        ∃ v, topics.get? n = some v ∧ noBrace v.data = true) →
      (∀ nm, PatTok.named nm ∈ toks →
        ∃ v, dictGet fields nm = some v ∧ noBrace v.data = true) →
      ∃ out, pyFormatAux topics fields fuel s = .ok out ∧ noBrace out = true := by
  intro fuel s
  induction fuel, s using parseSimpleImpl.induct with
  | case1 t =>
      intro toks hp h1 h2
      exact ⟨[], by simp [pyFormatAux], rfl⟩
  | case2 head tail =>
      intro toks hp h1 h2
      exact ⟨[], by simp [pyFormatAux], rfl⟩
  | case3 fuel rest run tail hdrop hrun =>
      intro toks hp h1 h2
      have hrun' : List.takeWhile isWordChar rest = [] := hrun
      simp only [parseSimpleImpl, hdrop, hrun', if_pos rfl] at hp
      simp at hp
  | case4 fuel rest run tail hdrop hrun hpnone ih =>
      intro toks hp h1 h2
      have hrun' : ¬List.takeWhile isWordChar rest = [] := hrun
      simp only [parseSimpleImpl, hdrop, hrun', if_false, hpnone] at hp
      exact absurd hp (by simp)
  | case5 fuel rest run tail hdrop hrun toks2 hpsome hdig ih =>
      intro toks hp h1 h2
      have hrun' : ¬List.takeWhile isWordChar rest = [] := hrun
      have hdig' : (List.takeWhile isWordChar rest).all Char.isDigit = true := hdig
      simp only [parseSimpleImpl, hdrop, hrun', if_false, hpsome, hdig', if_true] at hp
      injection hp with hp
      subst hp
      have hw : (List.takeWhile isWordChar rest).all isWordChar = true := by
        rw [List.all_eq_true]
        intro x hx
        exact List.mem_takeWhile_imp hx
      have hrest : rest = List.takeWhile isWordChar rest ++ '\x7d' :: tail := by
        conv_lhs => rw [← List.takeWhile_append_dropWhile (p := isWordChar) (l := rest)]
        rw [hdrop]
      have hfield := @pyFormatAux_field topics fields fuel
        (List.takeWhile isWordChar rest) tail hw hrun'
      rw [← hrest] at hfield
      obtain ⟨v, hv, hvnb⟩ := h1 (digitsVal (List.takeWhile isWordChar rest)) (by simp)
      obtain ⟨out2, hfmt2, hnb2⟩ := ih toks2 hpsome
        (fun n hn => h1 n (by simp [hn]))
        (fun nm hn => h2 nm (by simp [hn]))
      refine ⟨v.data ++ out2, ?_, ?_⟩
      · rw [hfield, if_pos ⟨hrun', hdig'⟩, hv, hfmt2]
      · simp only [noBrace, List.all_append, Bool.and_eq_true]
        exact ⟨hvnb, hnb2⟩
  | case6 fuel rest run tail hdrop hrun toks2 hpsome hnotdig ih =>
      intro toks hp h1 h2
      have hrun' : ¬List.takeWhile isWordChar rest = [] := hrun
      have hnotdig' : ¬(List.takeWhile isWordChar rest).all Char.isDigit = true := hnotdig
      simp only [parseSimpleImpl, hdrop, hrun', if_false, hpsome, hnotdig'] at hp
      injection hp with hp
      subst hp
      have hw : (List.takeWhile isWordChar rest).all isWordChar = true := by
        rw [List.all_eq_true]
        intro x hx
        exact List.mem_takeWhile_imp hx
      have hrest : rest = List.takeWhile isWordChar rest ++ '\x7d' :: tail := by
        conv_lhs => rw [← List.takeWhile_append_dropWhile (p := isWordChar) (l := rest)]
        rw [hdrop]
      have hfield := @pyFormatAux_field topics fields fuel
        (List.takeWhile isWordChar rest) tail hw hrun'
      rw [← hrest] at hfield
      obtain ⟨v, hv, hvnb⟩ := h2 (String.mk (List.takeWhile isWordChar rest)) (by simp)
      obtain ⟨out2, hfmt2, hnb2⟩ := ih toks2 hpsome
        (fun n hn => h1 n (by simp [hn]))
        (fun nm hn => h2 nm (by simp [hn]))
      refine ⟨v.data ++ out2, ?_, ?_⟩
      · rw [hfield, if_neg (fun hcond => hnotdig' hcond.2), hv, hfmt2]
      · simp only [noBrace, List.all_append, Bool.and_eq_true]
        exact ⟨hvnb, hnb2⟩
  | case7 fuel rest hguard =>
      intro toks hp h1 h2
      have hnone : parseSimpleImpl (fuel + 1) ('\x7b' :: rest) = none := by
        simp only [parseSimpleImpl]
      rw [hnone] at hp
      exact absurd hp (by simp)
  | case8 n tail =>
      intro toks hp h1 h2
      simp only [parseSimpleImpl] at hp
      exact absurd hp (by simp)
  | case9 fuel c rest hc7b hc7d hpnone ih =>
      intro toks hp h1 h2
      have hred : parseSimpleImpl (fuel + 1) (c :: rest) = none := by
        simp only [parseSimpleImpl, hpnone]
      rw [hred] at hp
      exact absurd hp (by simp)
  | case10 fuel c rest hc7b hc7d toks2 hpsome ih =>
      intro toks hp h1 h2
      have hred : parseSimpleImpl (fuel + 1) (c :: rest)
          = some (PatTok.lit c :: toks2) := by
        simp only [parseSimpleImpl, hpsome]
      rw [hred] at hp
      injection hp with hp
      subst hp
      obtain ⟨out2, hfmt2, hnb2⟩ := ih toks2 hpsome
        (fun n hn => h1 n (by simp [hn]))
        (fun nm hn => h2 nm (by simp [hn]))
      refine ⟨c :: out2, ?_, ?_⟩
      · rw [pyFormatAux_cons topics fields (fun he => hc7b he) (fun he => hc7d he),
          hfmt2]
      · simp only [noBrace, List.all_cons, Bool.and_eq_true]
        constructor
        · simp [isBraceChar, hc7b, hc7d]
          constructor
          · intro he; exact hc7b he
          · intro he; exact hc7d he
        · exact hnb2

theorem noBrace_map_replaceBackslash {l : List Char} (h : noBrace l = true) :
    noBrace (l.map replaceBackslash) = true := by
  simp only [noBrace, List.all_eq_true] at h ⊢
  intro x hx
  obtain ⟨y, hy, rfl⟩ := List.mem_map.mp hx
  by_cases hyb : y = '\\'
  · subst hyb
    simp [replaceBackslash, isBraceChar]
  · simp only [replaceBackslash, hyb, if_false]
    exact h y hy

/-- Claim C4, counterexample: the pattern with one positional
placeholder, a topic value that itself is an opening brace, and no
named fields satisfy the hypotheses of the claim (one positional index
below the topic count, no named placeholders), yet the formatted path
IS the literal opening brace, so the result contains a brace. -/
theorem claim_C4_counterexample :
    pos_development_directory [] [("asset", "{0}")]
        [("asset", [InvItem.plain (Scalar.s "x")])] [] ["\x7b"] "x" = .ok "\x7b"
    ∧ noBrace ("\x7b" : String).data = false :=
  ⟨rfl, rfl⟩

/-- Claim C4, amended: for a simple pattern (literal brace-free text
plus positional and named word-character placeholders), formatting
succeeds and the result is brace-free provided every positional index
is below the topic count, the code's own highest-position check
passes, every named placeholder resolves in the context-derived
fields, and all substituted topic and field VALUES are themselves
brace-free.  Without the brace-free-value condition the original claim
fails. -/
theorem claim_C4_format_success (cache templates : Dict) (inventory : Inventory)
    (context : Dict) (topics : List String) (item binding : String) (cache2 : Dict)
    (pattern : String) (toks : List PatTok) (highest : Int)
    (hb : binding_from_item cache inventory item = .ok (binding, cache2))
    (hpat : pattern_from_template templates binding = .ok pattern)
    (hparse : parseSimplePattern pattern.data = some toks)
    (hh : find_highest_position (find_positional_arguments pattern.data) = .ok highest)
    (hhle : ¬((topics.length : Int) - 1 < highest))
    (hpos : ∀ n, PatTok.pos n ∈ toks → n < topics.length)
    (htop : ∀ t ∈ topics, noBrace t.data = true)
    (hnamed : ∀ nm, PatTok.named nm ∈ toks →
      ∃ v, dictGet (replacement_fields_from_context context) nm = some v
        ∧ noBrace v.data = true) :
    ∃ out, pos_development_directory cache templates inventory context topics item
        = .ok out ∧ noBrace out.data = true := by
  have h1 : ∀ n, PatTok.pos n ∈ toks →
      ∃ v, topics.get? n = some v ∧ noBrace v.data = true := by
    intro n hn
    have hlt := hpos n hn
    exact ⟨topics.get ⟨n, hlt⟩, List.get?_eq_get hlt,
      htop _ (List.get_mem topics n hlt)⟩
  obtain ⟨out, hfmt, hnb⟩ := pyFormatAux_parsed topics
    (replacement_fields_from_context context) pattern.data.length pattern.data toks
    hparse h1 hnamed
  refine ⟨String.mk (out.map replaceBackslash), ?_, ?_⟩
  · simp only [pos_development_directory, hb, hpat, hh, if_neg hhle, pyFormat, hfmt]
  · exact noBrace_map_replaceBackslash hnb

/-- Claim C4, witness for the amended theorem at a concrete input. -/
theorem claim_C4_witness :
    ∃ out, pos_development_directory [] [("asset", "{cwd}/{0}")]
        [("asset", [InvItem.plain (Scalar.s "a")])] [("BE_CWD", "/root")] ["a"] "a"
        = .ok out ∧ noBrace out.data = true :=
  claim_C4_format_success [] [("asset", "{cwd}/{0}")]
    [("asset", [InvItem.plain (Scalar.s "a")])] [("BE_CWD", "/root")] ["a"] "a"
    "asset" [("a", "asset")] "{cwd}/{0}"
    [PatTok.named "cwd", PatTok.lit '/', PatTok.pos 0] 0
    rfl rfl rfl rfl (by decide)
    (by
      intro n hn
      simp only [List.mem_cons, List.not_mem_nil, or_false] at hn
      rcases hn with hn | hn | hn
      · simp at hn
      · simp at hn
      · injection hn with hn
        subst hn
        decide)
    (by decide)
    (by
      intro nm hn
      simp only [List.mem_cons, List.not_mem_nil, or_false] at hn
      rcases hn with hn | hn | hn
      · injection hn with hn
        subst hn
        exact ⟨"/root", rfl, rfl⟩
      · simp at hn
      · simp at hn)

end Be
